import Mathlib

/-!
Verification of the detection → tracking → classification core of the
prototype-violence-detection repository.

The Python sources are shallowly embedded as Lean functions over exact
rational arithmetic:

* `calculateIou` / `calculateIouE` embed `DeepSORTTracker._calculate_iou`
  (backend/app/ai/tracker.py).  `calculateIouE` is `Option`-valued: it
  returns `none` exactly where the Python division raises
  `ZeroDivisionError` (both boxes degenerate and touching); `calculateIou`
  is the total-rational rendering used when building similarity matrices.
* `greedyLoop` embeds the greedy `while` loop of
  `_assign_detections_to_tracks_simple`; `assign` embeds the whole method.
* `updateOnError` embeds the `except` handler of `DeepSORTTracker.update`,
  `deepsortResult` the DeepSORT success-path conversion.
* `classify` embeds `ViolenceClassifier.classify`
  (backend/app/ai/classifier.py), parametrised by the exponential used in
  the softmax and by the model as an oracle.
* `postprocessDet` embeds `YOLODetector.postprocess`
  (backend/app/ai/detector.py).
* `processFrame` embeds `AIPipeline.process_frame`
  (backend/app/ia/pipeline.py, the sequential variant), with the tracker
  in fallback (simple) mode.
-/

/-- An axis-aligned bounding box in `(x, y, w, h)` form, as used throughout
the tracker. -/
structure Box where
  x : ℚ
  y : ℚ
  w : ℚ
  h : ℚ
deriving DecidableEq, Repr

/-- A detection produced by the detector and consumed by the tracker:
`{'bbox': [...], 'confidence': c}`. -/
structure Det where
  bbox : Box
  confidence : ℚ
deriving DecidableEq, Repr

/-- Embedding of `DeepSORTTracker._calculate_iou` (ai/tracker.py lines
225-262), `Option`-valued: `none` models the `ZeroDivisionError` that the
Python code raises when the denominator `area1 + area2 - intersection` is
zero (only possible when both boxes are degenerate). -/
def calculateIouE (b1 b2 : Box) : Option ℚ :=
  let xLeft := max b1.x b2.x
  let yTop := max b1.y b2.y
  let xRight := min (b1.x + b1.w) (b2.x + b2.w)
  let yBottom := min (b1.y + b1.h) (b2.y + b2.h)
  if xRight < xLeft ∨ yBottom < yTop then some 0
  else
    let interArea := (xRight - xLeft) * (yBottom - yTop)
    let denom := b1.w * b1.h + b2.w * b2.h - interArea
    if denom = 0 then none
    else some (max 0 (min 1 (interArea / denom)))

/-- Total-rational rendering of `_calculate_iou`, used when the tracker
builds its IoU matrix (rational division is total, with `q / 0 = 0`; the
Python `ZeroDivisionError` corner is covered by `calculateIouE` and by the
`update` exception handler, `updateOnError`). -/
def calculateIou (b1 b2 : Box) : ℚ :=
  let xLeft := max b1.x b2.x
  let yTop := max b1.y b2.y
  let xRight := min (b1.x + b1.w) (b2.x + b2.w)
  let yBottom := min (b1.y + b1.h) (b2.y + b2.h)
  if xRight < xLeft ∨ yBottom < yTop then 0
  else
    let interArea := (xRight - xLeft) * (yBottom - yTop)
    let denom := b1.w * b1.h + b2.w * b2.h - interArea
    max 0 (min 1 (interArea / denom))

/-- Two boxes are (strictly) disjoint: separated along one axis. -/
def BoxDisjoint (b1 b2 : Box) : Prop :=
  b1.x + b1.w < b2.x ∨ b2.x + b2.w < b1.x ∨ b1.y + b1.h < b2.y ∨ b2.y + b2.h < b1.y

instance : DecidablePred fun p : Box × Box => BoxDisjoint p.1 p.2 := by
  intro p; unfold BoxDisjoint; infer_instance

/-- Per-track state kept by the fallback tracker:
`{bbox, feature, last_seen, age, confidence}` (ai/tracker.py line 57). -/
structure TrackInfo where
  bbox : Box
  feature : Option (List ℚ)
  last_seen : ℕ
  age : ℕ
  confidence : ℚ
deriving DecidableEq, Repr

/-- The tracker's `self.tracks` dict, as an insertion-ordered association
list from track id to `TrackInfo` (Python dicts preserve insertion order). -/
abbrev TrackMap := List (ℕ × TrackInfo)

/-- State of the in-repo fallback tracker: `self.tracks`, `self.next_id`,
`self.max_age`. -/
structure TrackerState where
  tracks : TrackMap
  next_id : ℕ
  max_age : ℕ
deriving DecidableEq, Repr

/-- The fallback tracker's state right after construction (or right after
the `except`-branch reset in `DeepSORTTracker.update`): empty track map,
next id 1. -/
def initState (ma : ℕ) : TrackerState := ⟨[], 1, ma⟩

/-- The aging pass at the top of `_assign_detections_to_tracks_simple`
(ai/tracker.py lines 146-153): every track's age is incremented and tracks
with `age > max_age` are deleted. -/
def ageTracks (ma : ℕ) (ts : TrackMap) : TrackMap :=
  (ts.map fun p => (p.1, { p.2 with age := p.2.age + 1 })).filter
    fun p => p.2.age ≤ ma

/-- New track created for an unmatched detection (ai/tracker.py lines
161-168 and 214-222). -/
def newTrack (d : Det) : TrackInfo :=
  { bbox := d.bbox, feature := none, last_seen := 0, age := 0,
    confidence := d.confidence }

/-- Sequential creation of new tracks for a list of detections, appending
to the dict and bumping `next_id` (the `for det in detections` loops). -/
def createTracks : TrackMap → ℕ → List Det → TrackMap × ℕ
  | ts, nid, [] => (ts, nid)
  | ts, nid, d :: ds => createTracks (ts ++ [(nid, newTrack d)]) (nid + 1) ds

/-- In-place value update of the dict at a key (Python
`self.tracks[track_id].update({...})`, which keeps the key's position). -/
def setTrack (ts : TrackMap) (id : ℕ) (f : TrackInfo → TrackInfo) : TrackMap :=
  ts.map fun p => if p.1 = id then (p.1, f p.2) else p

/-- The fields written into a matched track (ai/tracker.py lines 198-203). -/
def matchedUpdate (d : Det) (t : TrackInfo) : TrackInfo :=
  { t with bbox := d.bbox, last_seen := 0, age := 0, confidence := d.confidence }

/-- Row-major list of all matrix entries with their indices, mirroring the
flattened layout over which `np.argmax` / `np.unravel_index` operate. -/
def entryList (m n : ℕ) (M : ℕ → ℕ → ℚ) : List ((ℕ × ℕ) × ℚ) :=
  (List.range m).flatMap fun i => (List.range n).map fun j => ((i, j), M i j)

/-- Maximum of a list of rationals (`np.max` on a nonempty array; the `[]`
case never arises under the loop guard). -/
def listMax : List ℚ → ℚ
  | [] => 0
  | x :: xs => xs.foldl max x

/-- The matrix maximum, `iou_matrix.max()`. -/
def matMax (m n : ℕ) (M : ℕ → ℕ → ℚ) : ℚ :=
  listMax ((entryList m n M).map (·.2))

/-- The loop guard `iou_matrix.size > 0 and iou_matrix.max() > threshold`,
rendered as: some entry exceeds the threshold. -/
def anyAbove (thr : ℚ) (m n : ℕ) (M : ℕ → ℕ → ℚ) : Bool :=
  (entryList m n M).any fun e => thr < e.2

/-- The pair `np.unravel_index(matrix.argmax(), matrix.shape)`: the first
entry (in row-major order) attaining the matrix maximum. -/
def pickPair (m n : ℕ) (M : ℕ → ℕ → ℚ) : ℕ × ℕ :=
  (((entryList m n M).find? fun e => decide (e.2 = matMax m n M)).getD ((0, 0), 0)).1

/-- Zeroing the row and column of an assigned pair
(`iou_matrix[i, :] = 0; iou_matrix[:, j] = 0`). -/
def zeroRC (M : ℕ → ℕ → ℚ) (i j : ℕ) : ℕ → ℕ → ℚ :=
  fun i' j' => if i' = i ∨ j' = j then 0 else M i' j'

/-- The greedy matching `while` loop (ai/tracker.py lines 192-211),
fuel-indexed; `greedyMatch` runs it with fuel `min m n`, which theorem
`c10_greedy_terminates` shows is enough for the loop guard to go false, so
the fuelled function agrees with the unbounded loop. Returns the assigned
`(track index, detection index)` pairs in assignment order. -/
def greedyLoop (thr : ℚ) (m n : ℕ) : ℕ → (ℕ → ℕ → ℚ) → List (ℕ × ℕ)
  | 0, _ => []
  | fuel + 1, M =>
    if anyAbove thr m n M then
      let p := pickPair m n M
      p :: greedyLoop thr m n fuel (zeroRC M p.1 p.2)
    else []

/-- The greedy matching loop at its terminating fuel. -/
def greedyMatch (thr : ℚ) (m n : ℕ) (M : ℕ → ℕ → ℚ) : List (ℕ × ℕ) :=
  greedyLoop thr m n (min m n) M

/-- A placeholder detection for out-of-range list indexing (never reached
at in-range indices). -/
def defaultDet : Det := ⟨⟨0, 0, 0, 0⟩, 0⟩

/-- The IoU threshold of the greedy fallback (`iou_threshold = 0.3`). -/
def iouThreshold : ℚ := 3 / 10

/-- The track×detection IoU matrix (ai/tracker.py lines 176-183). -/
def iouMatrix (aged : TrackMap) (dets : List Det) : ℕ → ℕ → ℚ :=
  fun i j =>
    calculateIou ((aged.getD i (0, newTrack defaultDet)).2.bbox)
      ((dets.getD j defaultDet).bbox)

/-- Embedding of `DeepSORTTracker._assign_detections_to_tracks_simple`
(ai/tracker.py lines 139-223): age and prune tracks; with no detections
stop there; with no live tracks create one track per detection; otherwise
greedily match by IoU, update matched tracks, and create new tracks for
unmatched detections. -/
def assign (s : TrackerState) (dets : List Det) : TrackerState :=
  let aged := ageTracks s.max_age s.tracks
  if dets.isEmpty then { s with tracks := aged }
  else if aged.isEmpty then
    let cr := createTracks aged s.next_id dets
    { s with tracks := cr.1, next_id := cr.2 }
  else
    let ids := aged.map (·.1)
    let m := ids.length
    let n := dets.length
    let M := iouMatrix aged dets
    let matched := greedyMatch iouThreshold m n M
    let afterUpd := matched.foldl
      (fun ts p =>
        setTrack ts (ids.getD p.1 0) (matchedUpdate (dets.getD p.2 defaultDet)))
      aged
    let unmatchedJ := (List.range n).filter
      fun j => ¬ matched.any fun p => decide (p.2 = j)
    let cr :=
      createTracks afterUpd s.next_id (unmatchedJ.map fun j => dets.getD j defaultDet)
    { s with tracks := cr.1, next_id := cr.2 }

/-- A run of the fallback tracker over successive frames' detections. -/
def runAssign : TrackerState → List (List Det) → TrackerState
  | s, [] => s
  | s, ds :: rest => runAssign (assign s ds) rest

/-- Track ids present in a state that were not present before: the ids
handed out by the creation events of one `update` call. -/
def newKeys (before after : TrackerState) : List ℕ :=
  (after.tracks.map (·.1)).filter fun k => decide (k ∉ before.tracks.map (·.1))

/-- All ids created over a run, call by call, in creation order. -/
def runCreated : TrackerState → List (List Det) → List ℕ
  | _, [] => []
  | s, ds :: rest => newKeys s (assign s ds) ++ runCreated (assign s ds) rest

/-- Well-formedness of the fallback tracker state: distinct keys, all below
the running counter. -/
def WF (s : TrackerState) : Prop :=
  (s.tracks.map (·.1)).Nodup ∧ ∀ k ∈ s.tracks.map (·.1), k < s.next_id

/-- Number of matrix rows still containing an entry above the threshold
(termination measure for the greedy loop). -/
def rowsAbove (thr : ℚ) (m n : ℕ) (M : ℕ → ℕ → ℚ) : ℕ :=
  ((List.range m).filter fun i => (List.range n).any fun j => decide (thr < M i j)).length

/-- Number of matrix columns still containing an entry above the threshold
(termination measure for the greedy loop). -/
def colsAbove (thr : ℚ) (m n : ℕ) (M : ℕ → ℕ → ℚ) : ℕ :=
  ((List.range n).filter fun j => (List.range m).any fun i => decide (thr < M i j)).length

/-- One track as returned by the external `deep_sort_realtime` tracker:
confirmation status, `to_ltrb()` box, detection confidence, optional
feature vector (an oracle for the opaque component). -/
structure DsTrack where
  track_id : ℕ
  confirmed : Bool
  ltrb : ℚ × ℚ × ℚ × ℚ
  det_conf : ℚ
  feature : Option (List ℚ)
deriving DecidableEq, Repr

/-- State of the ai-variant tracker adapter: the strategy flag
`self.use_deepsort` plus the fallback tracker's own state. -/
structure AiTrackerState where
  use_deepsort : Bool
  fallback : TrackerState
deriving DecidableEq, Repr

/-- The DeepSORT success path of `DeepSORTTracker.update` (ai/tracker.py
lines 92-114): keep only confirmed tracks, convert each `ltrb` box back to
`(x, y, w, h)`, carry the confidence through. -/
def deepsortResult (tracks : List DsTrack) : TrackMap :=
  tracks.filterMap fun t =>
    if t.confirmed then
      some (t.track_id,
        { bbox := ⟨t.ltrb.1, t.ltrb.2.1, t.ltrb.2.2.1 - t.ltrb.1, t.ltrb.2.2.2 - t.ltrb.2.1⟩,
          feature := t.feature, last_seen := 0, age := 0, confidence := t.det_conf })
    else none

/-- The `except` handler of `DeepSORTTracker.update` (ai/tracker.py lines
126-137), applied to the tracker state as the handler sees it when the
exception arrives: in DeepSORT mode it permanently downgrades
(`self.use_deepsort = False`), resets the fallback state
(`self.tracks = {}; self.next_id = 1`) and reprocesses the current
detections with the fallback matcher; in fallback mode it returns the
current track map. -/
def updateOnError (s : AiTrackerState) (dets : List Det) : AiTrackerState × TrackMap :=
  if s.use_deepsort then
    let s2 := assign (initState s.fallback.max_age) dets
    (⟨false, s2⟩, s2.tracks)
  else (s, s.fallback.tracks)

/-- A video frame, kept abstract: only its `size` (number of array cells,
`np.ndarray.size`) and an opaque payload are relevant to the embedded
control flow. -/
structure Frame where
  size : ℕ
  payload : ℕ
deriving DecidableEq, Repr

/-- State of `ViolenceClassifier`: the frame ring buffer
(`deque(maxlen=num_frames)`), its capacity and the violence threshold. -/
structure ClassifierState where
  frame_buffer : List Frame
  num_frames : ℕ
  threshold : ℚ
deriving DecidableEq, Repr

/-- Push onto a `deque(maxlen=cap)`: append and evict from the left on
overflow. -/
def pushFrame (cap : ℕ) (buf : List Frame) (f : Frame) : List Frame :=
  let b := buf ++ [f]
  if cap < b.length then b.drop (b.length - cap) else b

/-- Embedding of `ViolenceClassifier.add_frame` (ai/classifier.py lines
79-81): store the frame, report whether the buffer is now full. -/
def addFrame (st : ClassifierState) (f : Frame) : ClassifierState × Bool :=
  let buf := pushFrame st.num_frames st.frame_buffer f
  ({ st with frame_buffer := buf }, st.num_frames ≤ buf.length)

/-- The classifier's result dictionary; `scores` and `error` are only
present on some paths, hence `Option`. The wall-clock `inference_time_ms`
field is not modelled. -/
structure ClassResult where
  class_id : ℕ
  class_name : String
  score : ℚ
  scores : Option (List ℚ)
  violence_detected : Bool
  error : Option String
deriving DecidableEq, Repr

/-- `self.class_names` (ai/classifier.py line 32). -/
def classNames : List String := ["no_violencia", "amenazante_ambigua", "violencia_directa"]

/-- The default result returned when the buffer is short (ai/classifier.py
lines 87-93). -/
def defaultClassResult : ClassResult :=
  { class_id := 0, class_name := "no_violencia", score := 0, scores := none,
    violence_detected := false, error := none }

/-- Embedding of `ViolenceClassifier._softmax` (ai/classifier.py lines
135-137): numerically-stable softmax, parametrised by the exponential
function `expF` standing for `np.exp`. -/
def softmax (expF : ℚ → ℚ) (x : List ℚ) : List ℚ :=
  let eX := x.map fun v => expF (v - listMax x)
  eX.map fun v => v / eX.sum

/-- The index returned by `np.argmax`: the first position attaining the
maximum. -/
def argmaxIdx (l : List ℚ) : ℕ := l.findIdx fun v => decide (v = listMax l)

/-- Embedding of the non-exception control flow of
`ViolenceClassifier.classify` (ai/classifier.py lines 86-123): with a
short buffer return the default result without touching the model;
otherwise run the model on the buffered frames, softmax the logits, argmax
for the class, and apply the asymmetric violence decision rule.  `expF` is
the real exponential of `np.exp`, kept abstract; `model` is the ONNX
session oracle mapping the buffered frames to the logits vector. -/
def classify (expF : ℚ → ℚ) (model : List Frame → List ℚ) (st : ClassifierState) :
    ClassResult :=
  if st.frame_buffer.length < st.num_frames then defaultClassResult
  else
    let logits := model st.frame_buffer
    let scores := softmax expF logits
    let class_id := argmaxIdx scores
    let score := scores.getD class_id 0
    let class_name := classNames.getD class_id "no_violencia"
    let violence_detected :=
      (class_id = 2 ∧ st.threshold ≤ score) ∨ (class_id = 1 ∧ st.threshold + 1 / 10 ≤ score)
    { class_id := class_id, class_name := class_name, score := score,
      scores := some scores, violence_detected := decide violence_detected, error := none }

/-- Session state carried by `AIPipeline` (ia/pipeline.py `__init__`):
frame counter, classification gating state, FPS bookkeeping, and the owned
classifier and (fallback-mode) tracker states.  `interval` is
`settings.VIOLENCE_FRAME_INTERVAL`. -/
structure PipelineState where
  frame_count : ℕ
  last_classification_frame : ℕ
  violence_classification : Option ClassResult
  fps_start_time : ℚ
  fps_frame_count : ℕ
  current_fps : ℚ
  classifier : ClassifierState
  tracker : TrackerState
  interval : ℕ
deriving DecidableEq, Repr

/-- One person entry of the pipeline result: `{id, bbox, confidence}`. -/
structure Person where
  id : ℕ
  bbox : Box
  confidence : ℚ
deriving DecidableEq, Repr

/-- The dictionary returned by `process_frame`.  The guard path returns
only `frame_id`, `persons` and `violence_detected`, so the remaining
fields are `Option`-valued and `none` there. -/
structure FrameResult where
  frame_id : ℕ
  persons : List Person
  violence_detected : Bool
  violence_score : Option ℚ
  violence_class : Option String
  fps : Option ℚ
deriving DecidableEq, Repr

/-- The early-return dictionary for a null or empty frame (ia/pipeline.py
lines 49-54). -/
def guardResult (st : PipelineState) : FrameResult :=
  { frame_id := st.frame_count, persons := [], violence_detected := false,
    violence_score := none, violence_class := none, fps := none }

/-- Embedding of `AIPipeline.process_frame` (ia/pipeline.py lines 38-117),
with the tracker in fallback (simple) mode.  `detector` is the YOLO model
oracle, `expF`/`model` feed the classifier, `now` is the wall-clock value
read by the FPS bookkeeping at frame arrival.  A `none` input models the
Python `None` frame. -/
def processFrame (detector : Frame → List Det) (expF : ℚ → ℚ)
    (model : List Frame → List ℚ) (now : ℚ) (st : PipelineState)
    (input : Option Frame) : PipelineState × FrameResult :=
  match input with
  | none => (st, guardResult st)
  | some frame =>
    if frame.size = 0 then (st, guardResult st)
    else
      let fc := st.frame_count + 1
      let ffc := st.fps_frame_count + 1
      let elapsed := now - st.fps_start_time
      let (fps, ffc2, fst2) :=
        if 1 ≤ elapsed then ((ffc : ℚ) / elapsed, 0, now)
        else (st.current_fps, ffc, st.fps_start_time)
      let detections := detector frame
      let tracker2 := assign st.tracker detections
      let classifier2 := (addFrame st.classifier frame).1
      let shouldClassify :=
        st.interval ≤ fc - st.last_classification_frame ∨
          st.violence_classification = none
      let (cache2, lastCf2) :=
        if shouldClassify ∧ st.classifier.num_frames ≤ classifier2.frame_buffer.length then
          (some (classify expF model classifier2), fc)
        else (st.violence_classification, st.last_classification_frame)
      let persons := tracker2.tracks.map fun p =>
        { id := p.1, bbox := p.2.bbox, confidence := p.2.confidence }
      let (vd, vs, vc) :=
        match cache2 with
        | some c => (c.violence_detected, c.score, c.class_name)
        | none => (false, 0, "no_violencia")
      ({ frame_count := fc, last_classification_frame := lastCf2,
         violence_classification := cache2, fps_start_time := fst2,
         fps_frame_count := ffc2, current_fps := fps,
         classifier := classifier2, tracker := tracker2, interval := st.interval },
       { frame_id := fc, persons := persons, violence_detected := vd,
         violence_score := some vs, violence_class := some vc, fps := some fps })

/-- One row of the raw YOLO output tensor `predictions[0]`:
`(x, y, w, h, conf)` in model-input coordinates. -/
structure RawPred where
  x : ℚ
  y : ℚ
  w : ℚ
  h : ℚ
  conf : ℚ
deriving DecidableEq, Repr

/-- One detection dictionary produced by `YOLODetector.postprocess`. -/
structure DetOut where
  bx : ℤ
  by' : ℤ
  bw : ℤ
  bh : ℤ
  confidence : ℚ
  class_id : ℕ
  class_name : String
deriving DecidableEq, Repr

/-- Python `int()` on a rational: truncation toward zero. -/
def pyInt (q : ℚ) : ℤ := if 0 ≤ q then ⌊q⌋ else ⌈q⌉

/-- Rescale-and-clip of one raw prediction (ai/detector.py lines 130-141):
scale to original resolution, clamp `x, y` into `[0, orig]` and `w, h`
into `[0, orig - coord]`. -/
def rescaleClip (scaleW scaleH : ℚ) (origW origH : ℕ) (p : RawPred) : DetOut :=
  let xo := max 0 (min (pyInt (p.x * scaleW)) (origW : ℤ))
  let yo := max 0 (min (pyInt (p.y * scaleH)) (origH : ℤ))
  let wo := max 0 (min (pyInt (p.w * scaleW)) ((origW : ℤ) - xo))
  let ho := max 0 (min (pyInt (p.h * scaleH)) ((origH : ℤ) - yo))
  { bx := xo, by' := yo, bw := wo, bh := ho, confidence := p.conf,
    class_id := 0, class_name := "person" }

/-- Embedding of `YOLODetector.postprocess` (ai/detector.py lines 105-143):
keep the predictions at or above the confidence threshold and rescale/clip
each surviving box back to the original image resolution.  No
non-maximum suppression step appears in the source. -/
def postprocessDet (inputW inputH : ℕ) (confThreshold : ℚ) (preds : List RawPred)
    (origH origW : ℕ) : List DetOut :=
  let scaleH := (origH : ℚ) / (inputH : ℚ)
  let scaleW := (origW : ℚ) / (inputW : ℚ)
  preds.filterMap fun p =>
    if confThreshold ≤ p.conf then some (rescaleClip scaleW scaleH origW origH p)
    else none

/-- The `(x, y, w, h)` box of a postprocessed detection, as a rational
`Box` (for stating overlap between returned detections). -/
def detOutBox (d : DetOut) : Box := ⟨(d.bx : ℚ), (d.by' : ℚ), (d.bw : ℚ), (d.bh : ℚ)⟩

/-- The aged track map at the start of an `update` of the fallback tracker. -/
def agedOf (s : TrackerState) : TrackMap := ageTracks s.max_age s.tracks

/-- The greedy matching result computed inside `assign` (greedy branch). -/
def matchedOf (s : TrackerState) (dets : List Det) : List (ℕ × ℕ) :=
  greedyMatch iouThreshold ((agedOf s).map (·.1)).length dets.length
    (iouMatrix (agedOf s) dets)

/-- The detection indices left unmatched by the greedy loop, in index
order (the final `for j, det in enumerate(detections)` pass). -/
def unmatchedOf (s : TrackerState) (dets : List Det) : List ℕ :=
  (List.range dets.length).filter fun j =>
    ¬ (matchedOf s dets).any fun p => decide (p.2 = j)

/-- Concrete 2×2 similarity matrix with a unique global maximum at `(1,0)`
(the spec's crafted tie-break scenario). -/
def witMatrix : ℕ → ℕ → ℚ := fun i j => if i = 1 ∧ j = 0 then 9 / 10 else 1 / 10

/-- Concrete fallback tracker state with two live tracks, for witnesses. -/
def witTrackerState : TrackerState :=
  ⟨[(1, newTrack ⟨⟨0, 0, 10, 10⟩, 1⟩), (2, newTrack ⟨⟨20, 0, 10, 10⟩, 1⟩)], 3, 30⟩

/-- Concrete detections: one overlapping track 2, one far away. -/
def witDets : List Det := [⟨⟨21, 0, 10, 10⟩, 9 / 10⟩, ⟨⟨100, 100, 10, 10⟩, 8 / 10⟩]

/-! ## Theorems -/

lemma calculateIouE_agree {b1 b2 : Box} {v : ℚ}
    (h : calculateIouE b1 b2 = some v) : calculateIou b1 b2 = v := by
  unfold calculateIouE at h
  unfold calculateIou
  dsimp only at h ⊢
  split at h
  case isTrue hc =>
    rw [if_pos hc]
    exact Option.some.inj h
  case isFalse hc =>
    rw [if_neg hc]
    split at h
    · exact absurd h (by simp)
    · exact Option.some.inj h
/-- C4: for the IoU function on `(x,y,w,h)` boxes: `IoU(b,b) = 1` for every
non-degenerate box `b`; `IoU = 0` for disjoint boxes; IoU is symmetric; and
every returned value lies in `[0,1]`. -/
theorem c4_iou_properties :
    (∀ b : Box, 0 < b.w → 0 < b.h → calculateIouE b b = some 1) ∧
    (∀ b1 b2 : Box, BoxDisjoint b1 b2 → calculateIouE b1 b2 = some 0) ∧
    (∀ b1 b2 : Box, calculateIouE b1 b2 = calculateIouE b2 b1) ∧
    (∀ b1 b2 : Box, ∀ v : ℚ, calculateIouE b1 b2 = some v → 0 ≤ v ∧ v ≤ 1) := by
  refine ⟨?_, ?_, ?_, ?_⟩
  · intro b hw hh
    unfold calculateIouE
    dsimp only
    rw [max_self, max_self, min_self, min_self]
    rw [if_neg (by push_neg; constructor <;> linarith)]
    have harea : (b.x + b.w - b.x) * (b.y + b.h - b.y) = b.w * b.h := by ring
    rw [harea]
    have hd : b.w * b.h + b.w * b.h - b.w * b.h = b.w * b.h := by ring
    rw [hd, if_neg (ne_of_gt (mul_pos hw hh)),
      div_self (ne_of_gt (mul_pos hw hh))]
    norm_num
  · intro b1 b2 hd
    unfold calculateIouE
    dsimp only
    rw [if_pos ?_]
    rcases hd with h | h | h | h
    · exact Or.inl (lt_of_le_of_lt (min_le_left _ _) (lt_of_lt_of_le h (le_max_right _ _)))
    · exact Or.inl (lt_of_le_of_lt (min_le_right _ _) (lt_of_lt_of_le h (le_max_left _ _)))
    · exact Or.inr (lt_of_le_of_lt (min_le_left _ _) (lt_of_lt_of_le h (le_max_right _ _)))
    · exact Or.inr (lt_of_le_of_lt (min_le_right _ _) (lt_of_lt_of_le h (le_max_left _ _)))
  · intro b1 b2
    unfold calculateIouE
    dsimp only
    rw [max_comm b2.x b1.x, max_comm b2.y b1.y,
      min_comm (b2.x + b2.w) (b1.x + b1.w), min_comm (b2.y + b2.h) (b1.y + b1.h),
      add_comm (b2.w * b2.h) (b1.w * b1.h)]
  · intro b1 b2 v h
    unfold calculateIouE at h
    dsimp only at h
    split at h
    · cases Option.some.inj h; norm_num
    · split at h
      · exact absurd h (by simp)
      · cases Option.some.inj h
        exact ⟨le_max_left _ _, max_le (by norm_num) (min_le_left _ _)⟩

/-- C4 witness: the IoU properties evaluated at concrete boxes. -/
theorem c4_iou_properties_witness :
    calculateIouE ⟨0, 0, 4, 4⟩ ⟨0, 0, 4, 4⟩ = some 1 ∧
    calculateIouE ⟨0, 0, 2, 2⟩ ⟨5, 5, 2, 2⟩ = some 0 ∧
    (0 : ℚ) ≤ 1 ∧ (1 : ℚ) ≤ 1 :=
  ⟨c4_iou_properties.1 ⟨0, 0, 4, 4⟩ (by norm_num) (by norm_num),
   c4_iou_properties.2.1 ⟨0, 0, 2, 2⟩ ⟨5, 5, 2, 2⟩ (by norm_num [BoxDisjoint]),
   c4_iou_properties.2.2.2 ⟨0, 0, 4, 4⟩ ⟨0, 0, 4, 4⟩ 1
     (c4_iou_properties.1 ⟨0, 0, 4, 4⟩ (by norm_num) (by norm_num))⟩

lemma init_le_foldl_max (b : ℚ) (xs : List ℚ) : b ≤ xs.foldl max b := by
  induction xs generalizing b with
  | nil => exact le_refl b
  | cons y ys ih => exact le_trans (le_max_left b y) (ih (max b y))

lemma mem_le_foldl_max (b : ℚ) (xs : List ℚ) : ∀ a ∈ xs, a ≤ xs.foldl max b := by
  induction xs generalizing b with
  | nil => intro a ha; cases ha
  | cons y ys ih =>
    intro a ha
    rcases List.mem_cons.mp ha with rfl | ha
    · exact le_trans (le_max_right b a) (init_le_foldl_max _ ys)
    · exact ih (max b y) a ha

lemma le_listMax_of_mem {l : List ℚ} {a : ℚ} (ha : a ∈ l) : a ≤ listMax l := by
  cases l with
  | nil => cases ha
  | cons x xs =>
    rcases List.mem_cons.mp ha with rfl | ha
    · exact init_le_foldl_max a xs
    · exact mem_le_foldl_max x xs a ha

lemma foldl_max_mem (b : ℚ) (xs : List ℚ) : xs.foldl max b = b ∨ xs.foldl max b ∈ xs := by
  induction xs generalizing b with
  | nil => exact Or.inl rfl
  | cons y ys ih =>
    rcases ih (max b y) with h | h
    · rcases max_choice b y with hb | hy
      · exact Or.inl (by rw [List.foldl_cons, h, hb])
      · exact Or.inr (by rw [List.foldl_cons, h, hy]; exact List.mem_cons_self _ _)
    · exact Or.inr (List.mem_cons_of_mem _ h)

lemma listMax_mem {l : List ℚ} (h : l ≠ []) : listMax l ∈ l := by
  cases l with
  | nil => exact absurd rfl h
  | cons x xs =>
    rcases foldl_max_mem x xs with h2 | h2
    · rw [listMax, h2]; exact List.mem_cons_self _ _
    · exact List.mem_cons_of_mem _ h2

lemma mem_entryList {m n : ℕ} {M : ℕ → ℕ → ℚ} {e : (ℕ × ℕ) × ℚ} :
    e ∈ entryList m n M ↔ ∃ i < m, ∃ j < n, e = ((i, j), M i j) := by
  simp only [entryList, List.mem_flatMap, List.mem_map, List.mem_range]
  constructor
  · rintro ⟨i, hi, j, hj, rfl⟩; exact ⟨i, hi, j, hj, rfl⟩
  · rintro ⟨i, hi, j, hj, rfl⟩; exact ⟨i, hi, j, hj, rfl⟩

lemma anyAbove_iff {thr : ℚ} {m n : ℕ} {M : ℕ → ℕ → ℚ} :
    anyAbove thr m n M = true ↔ ∃ i < m, ∃ j < n, thr < M i j := by
  simp only [anyAbove, List.any_eq_true]
  constructor
  · rintro ⟨e, he, hlt⟩
    rcases mem_entryList.mp he with ⟨i, hi, j, hj, rfl⟩
    exact ⟨i, hi, j, hj, by simpa using hlt⟩
  · rintro ⟨i, hi, j, hj, hlt⟩
    exact ⟨((i, j), M i j), mem_entryList.mpr ⟨i, hi, j, hj, rfl⟩, by simpa using hlt⟩

lemma matMax_ge {m n : ℕ} {M : ℕ → ℕ → ℚ} {i j : ℕ} (hi : i < m) (hj : j < n) :
    M i j ≤ matMax m n M :=
  le_listMax_of_mem (List.mem_map_of_mem (·.2) (mem_entryList.mpr ⟨i, hi, j, hj, rfl⟩))

lemma pickPair_spec {thr : ℚ} {m n : ℕ} {M : ℕ → ℕ → ℚ}
    (h : anyAbove thr m n M = true) :
    (pickPair m n M).1 < m ∧ (pickPair m n M).2 < n ∧
      M (pickPair m n M).1 (pickPair m n M).2 = matMax m n M ∧
      thr < matMax m n M := by
  rcases anyAbove_iff.mp h with ⟨i, hi, j, hj, hlt⟩
  have hne : entryList m n M ≠ [] := by
    intro hnil
    exact absurd (hnil ▸ mem_entryList.mpr ⟨i, hi, j, hj, rfl⟩) (List.not_mem_nil _)
  have hvne : (entryList m n M).map (·.2) ≠ [] := by
    simpa using hne
  have hmem : matMax m n M ∈ (entryList m n M).map (·.2) := listMax_mem hvne
  rcases List.mem_map.mp hmem with ⟨e0, he0, he0v⟩
  have hfind : ((entryList m n M).find? fun e => decide (e.2 = matMax m n M)).isSome := by
    rw [List.find?_isSome]
    exact ⟨e0, he0, by simpa using he0v⟩
  rcases Option.isSome_iff_exists.mp hfind with ⟨e, he⟩
  have heP : e.2 = matMax m n M := by simpa using List.find?_some he
  have heMem : e ∈ entryList m n M := List.mem_of_find?_eq_some he
  rcases mem_entryList.mp heMem with ⟨i', hi', j', hj', rfl⟩
  have hpick : pickPair m n M = (i', j') := by
    simp [pickPair, he]
  refine ⟨by rw [hpick]; exact hi', by rw [hpick]; exact hj', ?_, ?_⟩
  · rw [hpick]; exact heP
  · exact lt_of_lt_of_le hlt (matMax_ge hi hj)

lemma filter_length_le {α : Type} (l : List α) (P Q : α → Bool)
    (himp : ∀ x ∈ l, Q x = true → P x = true) :
    (l.filter Q).length ≤ (l.filter P).length := by
  induction l with
  | nil => exact le_refl 0
  | cons x xs ih =>
    have ih2 := ih fun y hy => himp y (List.mem_cons_of_mem x hy)
    by_cases hQ : Q x = true
    · have hP := himp x (List.mem_cons_self x xs) hQ
      simp [List.filter_cons, hQ, hP]
      exact ih2
    · simp only [List.filter_cons, Bool.not_eq_true] at hQ ⊢
      rw [hQ]
      by_cases hP : P x = true
      · simp [hP]
        exact le_trans ih2 (Nat.le_succ _)
      · simp only [Bool.not_eq_true] at hP
        rw [hP]
        exact ih2

lemma filter_length_lt {α : Type} (l : List α) (P Q : α → Bool)
    (himp : ∀ x ∈ l, Q x = true → P x = true) {a : α} (ha : a ∈ l)
    (haP : P a = true) (haQ : Q a = false) :
    (l.filter Q).length < (l.filter P).length := by
  induction l with
  | nil => cases ha
  | cons x xs ih =>
    have hle := filter_length_le xs P Q fun y hy => himp y (List.mem_cons_of_mem x hy)
    rcases List.mem_cons.mp ha with rfl | ha2
    · simp [List.filter_cons, haP, haQ]
      exact Nat.lt_succ_of_le hle
    · have ih2 := ih (fun y hy => himp y (List.mem_cons_of_mem x hy)) ha2
      by_cases hQ : Q x = true
      · have hP := himp x (List.mem_cons_self x xs) hQ
        simp [List.filter_cons, hQ, hP]
        exact ih2
      · simp only [Bool.not_eq_true] at hQ
        rw [List.filter_cons, List.filter_cons, hQ]
        by_cases hP : P x = true
        · simp [hP]
          exact Nat.lt_succ_of_lt ih2
        · simp only [Bool.not_eq_true] at hP
          rw [hP]
          simpa using ih2

lemma rowsAbove_pos {thr : ℚ} {m n : ℕ} {M : ℕ → ℕ → ℚ}
    (h : anyAbove thr m n M = true) : 0 < rowsAbove thr m n M := by
  rcases anyAbove_iff.mp h with ⟨i, hi, j, hj, hlt⟩
  have hmem : i ∈ (List.range m).filter fun i => (List.range n).any fun j => decide (thr < M i j) := by
    rw [List.mem_filter]
    refine ⟨List.mem_range.mpr hi, ?_⟩
    rw [List.any_eq_true]
    exact ⟨j, List.mem_range.mpr hj, by simpa using hlt⟩
  rw [rowsAbove]
  exact List.length_pos.mpr (List.ne_nil_of_mem hmem)

lemma colsAbove_pos {thr : ℚ} {m n : ℕ} {M : ℕ → ℕ → ℚ}
    (h : anyAbove thr m n M = true) : 0 < colsAbove thr m n M := by
  rcases anyAbove_iff.mp h with ⟨i, hi, j, hj, hlt⟩
  have hmem : j ∈ (List.range n).filter fun j => (List.range m).any fun i => decide (thr < M i j) := by
    rw [List.mem_filter]
    refine ⟨List.mem_range.mpr hj, ?_⟩
    rw [List.any_eq_true]
    exact ⟨i, List.mem_range.mpr hi, by simpa using hlt⟩
  rw [colsAbove]
  exact List.length_pos.mpr (List.ne_nil_of_mem hmem)

lemma zeroRC_le {thr : ℚ} (hthr : 0 ≤ thr) {M : ℕ → ℕ → ℚ} {i j i' j' : ℕ}
    (h : thr < zeroRC M i j i' j') : i' ≠ i ∧ j' ≠ j ∧ thr < M i' j' := by
  unfold zeroRC at h
  split at h
  · exact absurd h (not_lt.mpr hthr)
  case isFalse hcond =>
    push_neg at hcond
    exact ⟨hcond.1, hcond.2, h⟩

lemma rowsAbove_decrease {thr : ℚ} (hthr : 0 ≤ thr) {m n : ℕ} {M : ℕ → ℕ → ℚ}
    (h : anyAbove thr m n M = true) :
    rowsAbove thr m n (zeroRC M (pickPair m n M).1 (pickPair m n M).2) <
      rowsAbove thr m n M := by
  obtain ⟨hpm, hpn, hMeq, hmax⟩ := pickPair_spec h
  apply filter_length_lt
  · intro i _ hQ
    rw [List.any_eq_true] at hQ ⊢
    rcases hQ with ⟨j, hj, hlt⟩
    have hlt2 := of_decide_eq_true hlt
    obtain ⟨_, _, h3⟩ := zeroRC_le hthr hlt2
    exact ⟨j, hj, decide_eq_true h3⟩
  · exact List.mem_range.mpr hpm
  · rw [List.any_eq_true]
    exact ⟨(pickPair m n M).2, List.mem_range.mpr hpn,
      decide_eq_true (hMeq ▸ hmax)⟩
  · rw [Bool.eq_false_iff]
    intro hQ
    rw [List.any_eq_true] at hQ
    rcases hQ with ⟨j, _, hlt⟩
    have hlt2 := of_decide_eq_true hlt
    obtain ⟨hne, _, _⟩ := zeroRC_le hthr hlt2
    exact hne rfl

lemma colsAbove_decrease {thr : ℚ} (hthr : 0 ≤ thr) {m n : ℕ} {M : ℕ → ℕ → ℚ}
    (h : anyAbove thr m n M = true) :
    colsAbove thr m n (zeroRC M (pickPair m n M).1 (pickPair m n M).2) <
      colsAbove thr m n M := by
  obtain ⟨hpm, hpn, hMeq, hmax⟩ := pickPair_spec h
  apply filter_length_lt
  · intro j _ hQ
    rw [List.any_eq_true] at hQ ⊢
    rcases hQ with ⟨i, hi, hlt⟩
    have hlt2 := of_decide_eq_true hlt
    obtain ⟨_, _, h3⟩ := zeroRC_le hthr hlt2
    exact ⟨i, hi, decide_eq_true h3⟩
  · exact List.mem_range.mpr hpn
  · rw [List.any_eq_true]
    exact ⟨(pickPair m n M).1, List.mem_range.mpr hpm,
      decide_eq_true (hMeq ▸ hmax)⟩
  · rw [Bool.eq_false_iff]
    intro hQ
    rw [List.any_eq_true] at hQ
    rcases hQ with ⟨i, _, hlt⟩
    have hlt2 := of_decide_eq_true hlt
    obtain ⟨_, hne, _⟩ := zeroRC_le hthr hlt2
    exact hne rfl

lemma greedyLoop_of_not_any {thr : ℚ} {m n : ℕ} {M : ℕ → ℕ → ℚ}
    (h : anyAbove thr m n M = false) (fuel : ℕ) :
    greedyLoop thr m n fuel M = [] := by
  cases fuel with
  | zero => rfl
  | succ f => simp [greedyLoop, h]

lemma greedyLoop_stable {thr : ℚ} (hthr : 0 ≤ thr) (m n : ℕ) :
    ∀ k (M : ℕ → ℕ → ℚ) (fuel₁ fuel₂ : ℕ),
      min (rowsAbove thr m n M) (colsAbove thr m n M) ≤ k →
      k ≤ fuel₁ → k ≤ fuel₂ →
      greedyLoop thr m n fuel₁ M = greedyLoop thr m n fuel₂ M := by
  intro k
  induction k with
  | zero =>
    intro M fuel₁ fuel₂ hk _ _
    have hany : anyAbove thr m n M = false := by
      by_contra hc
      rw [Bool.not_eq_false] at hc
      have h1 := rowsAbove_pos hc
      have h2 := colsAbove_pos hc
      omega
    rw [greedyLoop_of_not_any hany, greedyLoop_of_not_any hany]
  | succ k ih =>
    intro M fuel₁ fuel₂ hk h1 h2
    cases fuel₁ with
    | zero => omega
    | succ f₁ =>
      cases fuel₂ with
      | zero => omega
      | succ f₂ =>
        by_cases hany : anyAbove thr m n M = true
        · rw [greedyLoop, greedyLoop, if_pos hany, if_pos hany]
          dsimp only
          have hr := rowsAbove_decrease hthr hany
          have hc := colsAbove_decrease hthr hany
          have hrec := ih (zeroRC M (pickPair m n M).1 (pickPair m n M).2) f₁ f₂
            (by omega) (by omega) (by omega)
          rw [hrec]
        · rw [Bool.not_eq_true] at hany
          rw [greedyLoop_of_not_any hany, greedyLoop_of_not_any hany]

lemma greedyLoop_length_le {thr : ℚ} (hthr : 0 ≤ thr) (m n : ℕ) :
    ∀ (fuel : ℕ) (M : ℕ → ℕ → ℚ),
      (greedyLoop thr m n fuel M).length ≤
        min (rowsAbove thr m n M) (colsAbove thr m n M) := by
  intro fuel
  induction fuel with
  | zero => intro M; simp [greedyLoop]
  | succ f ih =>
    intro M
    by_cases hany : anyAbove thr m n M = true
    · rw [greedyLoop, if_pos hany]
      dsimp only
      have hr := rowsAbove_decrease hthr hany
      have hc := colsAbove_decrease hthr hany
      have := ih (zeroRC M (pickPair m n M).1 (pickPair m n M).2)
      simp only [List.length_cons]
      omega
    · rw [Bool.not_eq_true] at hany
      rw [greedyLoop_of_not_any hany]
      simp

lemma rowsAbove_le (thr : ℚ) (m n : ℕ) (M : ℕ → ℕ → ℚ) : rowsAbove thr m n M ≤ m := by
  rw [rowsAbove]
  exact le_trans (List.length_filter_le _ _) (by simp)

lemma colsAbove_le (thr : ℚ) (m n : ℕ) (M : ℕ → ℕ → ℚ) : colsAbove thr m n M ≤ n := by
  rw [colsAbove]
  exact le_trans (List.length_filter_le _ _) (by simp)

lemma greedy_unmatched {thr : ℚ} (hthr : 0 ≤ thr) (m n : ℕ) :
    ∀ k (M : ℕ → ℕ → ℚ) (fuel : ℕ),
      min (rowsAbove thr m n M) (colsAbove thr m n M) ≤ k →
      k ≤ fuel →
      ∀ i < m, ∀ j < n,
        (∀ p ∈ greedyLoop thr m n fuel M, p.1 ≠ i) →
        (∀ p ∈ greedyLoop thr m n fuel M, p.2 ≠ j) →
        M i j ≤ thr := by
  intro k
  induction k with
  | zero =>
    intro M fuel hk _ i hi j hj _ _
    have hany : anyAbove thr m n M = false := by
      by_contra hc
      rw [Bool.not_eq_false] at hc
      have h1 := rowsAbove_pos hc
      have h2 := colsAbove_pos hc
      omega
    by_contra hgt
    push_neg at hgt
    exact absurd (anyAbove_iff.mpr ⟨i, hi, j, hj, hgt⟩) (by rw [hany]; simp)
  | succ k ih =>
    intro M fuel hk hfuel i hi j hj hrow hcol
    cases fuel with
    | zero => omega
    | succ f =>
      by_cases hany : anyAbove thr m n M = true
      · rw [greedyLoop, if_pos hany] at hrow hcol
        dsimp only at hrow hcol
        have hr := rowsAbove_decrease hthr hany
        have hc := colsAbove_decrease hthr hany
        have hpi : (pickPair m n M).1 ≠ i := hrow _ (List.mem_cons_self _ _)
        have hpj : (pickPair m n M).2 ≠ j := hcol _ (List.mem_cons_self _ _)
        have hrec := ih (zeroRC M (pickPair m n M).1 (pickPair m n M).2) f
          (by omega) (by omega) i hi j hj
          (fun p hp => hrow p (List.mem_cons_of_mem _ hp))
          (fun p hp => hcol p (List.mem_cons_of_mem _ hp))
        rw [zeroRC] at hrec
        simpa [Ne.symm hpi, Ne.symm hpj] using hrec
      · rw [Bool.not_eq_true] at hany
        by_contra hgt
        push_neg at hgt
        exact absurd (anyAbove_iff.mpr ⟨i, hi, j, hj, hgt⟩) (by rw [hany]; simp)

/-- C10: the greedy matching while-loop always terminates: with a strictly
positive threshold, every fuel of at least `min m n` yields the same
(final) assignment list, i.e. the loop guard goes false within
`min (number of tracks) (number of detections)` iterations, and the number
of assignments never exceeds that bound. -/
theorem c10_greedy_terminates (thr : ℚ) (m n : ℕ) (M : ℕ → ℕ → ℚ) (hthr : 0 < thr) :
    (∀ fuel, min m n ≤ fuel → greedyLoop thr m n fuel M = greedyMatch thr m n M) ∧
    (greedyMatch thr m n M).length ≤ min m n := by
  have hthr' := le_of_lt hthr
  have hmin : min (rowsAbove thr m n M) (colsAbove thr m n M) ≤ min m n :=
    min_le_min (rowsAbove_le thr m n M) (colsAbove_le thr m n M)
  constructor
  · intro fuel hf
    exact greedyLoop_stable hthr' m n (min m n) M fuel (min m n)
      hmin hf (le_refl _)
  · exact le_trans (greedyLoop_length_le hthr' m n (min m n) M) hmin

/-- C10 witness: the termination statement evaluated on a concrete 2×2
matrix with extra fuel. -/
theorem c10_greedy_terminates_witness :
    (0 : ℚ) < iouThreshold ∧
      greedyLoop iouThreshold 2 2 5 (fun i j => if i = 0 ∧ j = 0 then 1 else 0) =
        greedyMatch iouThreshold 2 2 (fun i j => if i = 0 ∧ j = 0 then 1 else 0) ∧
      (greedyMatch iouThreshold 2 2 (fun i j => if i = 0 ∧ j = 0 then 1 else 0)).length ≤
        min 2 2 :=
  ⟨by norm_num [iouThreshold],
   (c10_greedy_terminates iouThreshold 2 2 (fun i j => if i = 0 ∧ j = 0 then 1 else 0)
     (by norm_num [iouThreshold])).1 5 (by norm_num),
   (c10_greedy_terminates iouThreshold 2 2 (fun i j => if i = 0 ∧ j = 0 then 1 else 0)
     (by norm_num [iouThreshold])).2⟩

lemma createTracks_eq (ds : List Det) : ∀ (ts : TrackMap) (nid : ℕ),
    (createTracks ts nid ds).1 = ts ++ (List.range' nid ds.length).zip (ds.map newTrack) ∧
    (createTracks ts nid ds).2 = nid + ds.length := by
  induction ds with
  | nil => intro ts nid; simp [createTracks]
  | cons d rest ih =>
    intro ts nid
    have h := ih (ts ++ [(nid, newTrack d)]) (nid + 1)
    rw [createTracks]
    refine ⟨?_, ?_⟩
    · rw [h.1]
      simp [List.range'_succ]
    · rw [h.2]
      simp [List.length_cons]
      omega

lemma setTrack_keys (ts : TrackMap) (id : ℕ) (f : TrackInfo → TrackInfo) :
    (setTrack ts id f).map (·.1) = ts.map (·.1) := by
  unfold setTrack
  rw [List.map_map]
  apply List.map_congr_left
  intro p _
  by_cases hp : p.1 = id <;> simp [hp]

lemma foldl_setTrack_keys (ids : List ℕ) (dets : List Det) :
    ∀ (ps : List (ℕ × ℕ)) (ts : TrackMap),
      ((ps.foldl
        (fun ts p => setTrack ts (ids.getD p.1 0) (matchedUpdate (dets.getD p.2 defaultDet)))
        ts).map (·.1)) = ts.map (·.1) := by
  intro ps
  induction ps with
  | nil => intro ts; rfl
  | cons p rest ih =>
    intro ts
    rw [List.foldl_cons, ih, setTrack_keys]

lemma ageTracks_keys_sublist (ma : ℕ) (ts : TrackMap) :
    ((ageTracks ma ts).map (·.1)).Sublist (ts.map (·.1)) := by
  unfold ageTracks
  have h1 : ((ts.map fun p => (p.1, { p.2 with age := p.2.age + 1 })).filter
      fun p => p.2.age ≤ ma).Sublist (ts.map fun p => (p.1, { p.2 with age := p.2.age + 1 })) :=
    List.filter_sublist _
  have h2 := h1.map (·.1)
  rw [List.map_map] at h2
  have h3 : (ts.map ((fun (p : ℕ × TrackInfo) => p.1) ∘
      fun p => (p.1, { p.2 with age := p.2.age + 1 }))) = ts.map (·.1) :=
    List.map_congr_left fun p _ => rfl
  rwa [h3] at h2

lemma ageTracks_age_le (ma : ℕ) (ts : TrackMap) :
    ∀ p ∈ ageTracks ma ts, p.2.age ≤ ma := by
  intro p hp
  have := (List.mem_filter.mp hp).2
  simpa using this

lemma setTrack_matched_age_le (ma : ℕ) (ts : TrackMap) (id : ℕ) (d : Det)
    (h : ∀ p ∈ ts, p.2.age ≤ ma) :
    ∀ p ∈ setTrack ts id (matchedUpdate d), p.2.age ≤ ma := by
  intro p hp
  rcases List.mem_map.mp hp with ⟨q, hq, rfl⟩
  by_cases hqid : q.1 = id
  · simp [hqid, matchedUpdate]
  · simpa [hqid] using h q hq

lemma foldl_setTrack_age_le (ma : ℕ) (ids : List ℕ) (dets : List Det) :
    ∀ (ps : List (ℕ × ℕ)) (ts : TrackMap), (∀ p ∈ ts, p.2.age ≤ ma) →
      ∀ p ∈ ps.foldl
        (fun ts p => setTrack ts (ids.getD p.1 0) (matchedUpdate (dets.getD p.2 defaultDet)))
        ts, p.2.age ≤ ma := by
  intro ps
  induction ps with
  | nil => intro ts h; exact h
  | cons q rest ih =>
    intro ts h
    rw [List.foldl_cons]
    exact ih _ (setTrack_matched_age_le ma ts _ _ h)

lemma assign_shape (s : TrackerState) (dets : List Det) :
    ∃ (upd : TrackMap) (ds2 : List Det),
      (assign s dets).tracks =
        upd ++ (List.range' s.next_id ds2.length).zip (ds2.map newTrack) ∧
      upd.map (·.1) = (ageTracks s.max_age s.tracks).map (·.1) ∧
      (assign s dets).next_id = s.next_id + ds2.length ∧
      (∀ p ∈ upd, p.2.age ≤ s.max_age) ∧
      (assign s dets).max_age = s.max_age := by
  unfold assign
  dsimp only
  by_cases h1 : dets.isEmpty
  · rw [if_pos h1]
    exact ⟨ageTracks s.max_age s.tracks, [], by simp, rfl, by simp,
      ageTracks_age_le _ _, rfl⟩
  · rw [if_neg h1]
    by_cases h2 : (ageTracks s.max_age s.tracks).isEmpty
    · rw [if_pos h2]
      refine ⟨[], dets, ?_, ?_, ?_, by simp, rfl⟩
      · rw [(createTracks_eq dets _ _).1, List.isEmpty_iff.mp h2]
      · rw [List.isEmpty_iff.mp h2]
      · exact (createTracks_eq dets _ _).2
    · rw [if_neg h2]
      exact ⟨_, _, (createTracks_eq _ _ _).1, foldl_setTrack_keys _ _ _ _,
        (createTracks_eq _ _ _).2,
        foldl_setTrack_age_le s.max_age _ _ _ _ (ageTracks_age_le _ _), rfl⟩

lemma assign_next_le (s : TrackerState) (dets : List Det) :
    s.next_id ≤ (assign s dets).next_id := by
  obtain ⟨upd, ds2, _, _, h3, _, _⟩ := assign_shape s dets
  omega

lemma assign_max_age (s : TrackerState) (dets : List Det) :
    (assign s dets).max_age = s.max_age := by
  obtain ⟨upd, ds2, _, _, _, _, h5⟩ := assign_shape s dets
  exact h5

lemma assign_keys (s : TrackerState) (dets : List Det) :
    (assign s dets).tracks.map (·.1) =
      (ageTracks s.max_age s.tracks).map (·.1) ++
        List.range' s.next_id ((assign s dets).next_id - s.next_id) := by
  obtain ⟨upd, ds2, h1, h2, h3, _, _⟩ := assign_shape s dets
  rw [h1, List.map_append, h2]
  congr 1
  have hlen : (List.range' s.next_id ds2.length).length ≤ (ds2.map newTrack).length := by
    simp
  rw [List.map_fst_zip _ _ hlen]
  have hk : (assign s dets).next_id - s.next_id = ds2.length := by omega
  rw [hk]

lemma assign_age_le (s : TrackerState) (dets : List Det) :
    ∀ p ∈ (assign s dets).tracks, p.2.age ≤ s.max_age := by
  obtain ⟨upd, ds2, h1, _, _, h4, _⟩ := assign_shape s dets
  intro p hp
  rw [h1] at hp
  rcases List.mem_append.mp hp with hp | hp
  · exact h4 p hp
  · have := (List.of_mem_zip hp).2
    rcases List.mem_map.mp this with ⟨d, _, hd⟩
    rw [← hd]
    simp [newTrack]

lemma assign_WF {s : TrackerState} (hwf : WF s) (dets : List Det) :
    WF (assign s dets) := by
  obtain ⟨hnd, hlt⟩ := hwf
  have hsub := ageTracks_keys_sublist s.max_age s.tracks
  have hkeys := assign_keys s dets
  have hnext := assign_next_le s dets
  constructor
  · rw [hkeys, List.nodup_append]
    refine ⟨hsub.nodup hnd, List.nodup_range' _ _, ?_⟩
    intro x hx hx2
    have hxo : x ∈ s.tracks.map (·.1) := hsub.mem hx
    have h1 := hlt x hxo
    have h2 := (List.mem_range'_1.mp hx2).1
    omega
  · intro k hk
    rw [hkeys] at hk
    rcases List.mem_append.mp hk with hk | hk
    · have := hlt k (hsub.mem hk)
      omega
    · have := (List.mem_range'_1.mp hk).2
      omega

lemma assign_newKeys {s : TrackerState} (hwf : WF s) (dets : List Det) :
    newKeys s (assign s dets) =
      List.range' s.next_id ((assign s dets).next_id - s.next_id) := by
  obtain ⟨_, hlt⟩ := hwf
  have hsub := ageTracks_keys_sublist s.max_age s.tracks
  rw [newKeys, assign_keys s dets, List.filter_append]
  have h1 : ((ageTracks s.max_age s.tracks).map (·.1)).filter
      (fun k => decide (k ∉ s.tracks.map (·.1))) = [] := by
    rw [List.filter_eq_nil_iff]
    intro k hk
    have := hsub.mem hk
    simp [this]
  have h2 : (List.range' s.next_id ((assign s dets).next_id - s.next_id)).filter
      (fun k => decide (k ∉ s.tracks.map (·.1))) =
      List.range' s.next_id ((assign s dets).next_id - s.next_id) := by
    rw [List.filter_eq_self]
    intro k hk
    have hge := (List.mem_range'_1.mp hk).1
    simp only [decide_eq_true_eq]
    intro hmem
    have := hlt k hmem
    omega
  rw [h1, h2, List.nil_append]

lemma runCreated_spec : ∀ (frames : List (List Det)) (s : TrackerState), WF s →
    List.Pairwise (· < ·) (runCreated s frames) ∧
    ∀ x ∈ runCreated s frames, s.next_id ≤ x := by
  intro frames
  induction frames with
  | nil => intro s _; exact ⟨List.Pairwise.nil, by simp [runCreated]⟩
  | cons ds rest ih =>
    intro s hwf
    have hwf2 := assign_WF hwf ds
    have hnk := assign_newKeys hwf ds
    have hnext := assign_next_le s ds
    obtain ⟨ihp, ihb⟩ := ih (assign s ds) hwf2
    rw [runCreated]
    constructor
    · rw [List.pairwise_append]
      refine ⟨by rw [hnk]; exact List.pairwise_lt_range' _ _, ihp, ?_⟩
      intro a ha b hb
      rw [hnk] at ha
      have ha2 := (List.mem_range'_1.mp ha).2
      have hb2 := ihb b hb
      omega
    · intro x hx
      rcases List.mem_append.mp hx with hx | hx
      · rw [hnk] at hx
        exact (List.mem_range'_1.mp hx).1
      · exact le_trans hnext (ihb x hx)

/-- C2: track ids are assigned sequentially from the running next-id
counter and never reused: over any run of fallback `update` calls from the
tracker's initial (or post-downgrade reset) state, the ids handed out by
successive creation events are strictly increasing, hence pairwise
distinct; and the one-way downgrade replays the current detections against
exactly that freshly reset initial state, so post-downgrade runs are such
runs. -/
theorem c2_track_ids_never_reused (ma : ℕ) (frames : List (List Det)) :
    List.Pairwise (· < ·) (runCreated (initState ma) frames) ∧
    ∀ (a : AiTrackerState) (dets : List Det), a.use_deepsort = true →
      (updateOnError a dets).1 = ⟨false, assign (initState a.fallback.max_age) dets⟩ := by
  constructor
  · exact (runCreated_spec frames (initState ma) ⟨List.nodup_nil, by simp [initState]⟩).1
  · intro a dets h
    simp [updateOnError, h]

/-- C2 witness: a concrete two-frame run and a concrete downgrade. -/
theorem c2_track_ids_never_reused_witness :
    List.Pairwise (· < ·)
      (runCreated (initState 30) [[⟨⟨0, 0, 10, 10⟩, 1⟩], [⟨⟨100, 100, 10, 10⟩, 1⟩]]) ∧
    (updateOnError ⟨true, initState 30⟩ []).1 = ⟨false, assign (initState 30) []⟩ :=
  ⟨(c2_track_ids_never_reused 30 [[⟨⟨0, 0, 10, 10⟩, 1⟩], [⟨⟨100, 100, 10, 10⟩, 1⟩]]).1,
   (c2_track_ids_never_reused 30 []).2 ⟨true, initState 30⟩ [] rfl⟩

lemma lookup_eq_none_of_not_mem {α : Type} [DecidableEq α] {β : Type}
    {l : List (α × β)} {a : α} (h : a ∉ l.map Prod.fst) : l.lookup a = none := by
  induction l with
  | nil => rfl
  | cons p rest ih =>
    have h1 : a ≠ p.1 := fun he => h (by simp [he])
    have h2 : a ∉ rest.map Prod.fst := fun hm => h (by simp [hm])
    rw [show p = (p.1, p.2) from rfl, List.lookup_cons]
    have hb : (a == p.1) = false := beq_eq_false_iff_ne.mpr h1
    rw [hb]
    exact ih h2

lemma ageTracks_cons_keep {ma : ℕ} {k : ℕ} {v : TrackInfo} {rest : TrackMap}
    (hkeep : v.age + 1 ≤ ma) :
    ageTracks ma ((k, v) :: rest) =
      (k, { v with age := v.age + 1 }) :: ageTracks ma rest := by
  unfold ageTracks
  rw [List.map_cons, List.filter_cons]
  simp [hkeep]

lemma ageTracks_cons_drop {ma : ℕ} {k : ℕ} {v : TrackInfo} {rest : TrackMap}
    (hdrop : ¬ v.age + 1 ≤ ma) :
    ageTracks ma ((k, v) :: rest) = ageTracks ma rest := by
  unfold ageTracks
  rw [List.map_cons, List.filter_cons]
  simp [hdrop]

lemma lookup_ageTracks {ma : ℕ} {tid : ℕ} :
    ∀ {ts : TrackMap}, (ts.map (·.1)).Nodup →
      List.lookup tid (ageTracks ma ts) =
        (List.lookup tid ts).bind fun t =>
          if t.age + 1 ≤ ma then some { t with age := t.age + 1 } else none := by
  intro ts
  induction ts with
  | nil => intro _; rfl
  | cons p rest ih =>
    intro hnd
    rw [List.map_cons, List.nodup_cons] at hnd
    obtain ⟨hp, hnd2⟩ := hnd
    have hrec := ih hnd2
    rw [show p = (p.1, p.2) from rfl]
    by_cases hid : tid = p.1
    · rw [List.lookup_cons]
      have hb : (tid == p.1) = true := beq_iff_eq.mpr hid
      rw [hb]
      by_cases hkeep : p.2.age + 1 ≤ ma
      · rw [ageTracks_cons_keep hkeep, List.lookup_cons, hb]
        simp [hkeep]
      · rw [ageTracks_cons_drop hkeep]
        have hnm : tid ∉ (ageTracks ma rest).map Prod.fst := by
          intro hm
          rw [hid] at hm
          exact hp ((ageTracks_keys_sublist ma rest).mem hm)
        rw [lookup_eq_none_of_not_mem hnm]
        simp [hkeep]
    · rw [List.lookup_cons]
      have hb : (tid == p.1) = false := beq_eq_false_iff_ne.mpr hid
      rw [hb]
      by_cases hkeep : p.2.age + 1 ≤ ma
      · rw [ageTracks_cons_keep hkeep, List.lookup_cons, hb]
        exact hrec
      · rw [ageTracks_cons_drop hkeep]
        exact hrec

lemma lookup_eq_none_iff {α : Type} [DecidableEq α] {β : Type}
    {l : List (α × β)} {a : α} : l.lookup a = none ↔ a ∉ l.map Prod.fst := by
  induction l with
  | nil => simp
  | cons p rest ih =>
    rw [show p = (p.1, p.2) from rfl, List.lookup_cons]
    by_cases h1 : a = p.1
    · have hb : (a == p.1) = true := beq_iff_eq.mpr h1
      rw [hb]
      simp [h1]
    · have hb : (a == p.1) = false := beq_eq_false_iff_ne.mpr h1
      rw [hb]
      simpa [h1] using ih

lemma assign_nil_eq (s : TrackerState) :
    assign s [] = { s with tracks := ageTracks s.max_age s.tracks } := by
  unfold assign
  simp

lemma runAssign_replicate_nil :
    ∀ (k : ℕ) (s : TrackerState) (tid : ℕ) (info : TrackInfo), WF s →
      List.lookup tid s.tracks = some info → info.age ≤ s.max_age →
      List.lookup tid (runAssign s (List.replicate k [])).tracks =
        if info.age + k ≤ s.max_age then some { info with age := info.age + k }
        else none := by
  intro k
  induction k with
  | zero =>
    intro s tid info _ hlk hle
    rw [List.replicate_zero, runAssign, if_pos (by omega)]
    rw [hlk]
    congr 1
  | succ k ih =>
    intro s tid info hwf hlk hle
    rw [List.replicate_succ, runAssign, assign_nil_eq]
    have hwf2 : WF { s with tracks := ageTracks s.max_age s.tracks } := by
      rw [← assign_nil_eq]
      exact assign_WF hwf []
    have hlk2 := @lookup_ageTracks s.max_age tid s.tracks hwf.1
    rw [hlk, Option.some_bind] at hlk2
    by_cases hkeep : info.age + 1 ≤ s.max_age
    · rw [if_pos hkeep] at hlk2
      have hres := ih { s with tracks := ageTracks s.max_age s.tracks } tid
        { info with age := info.age + 1 } hwf2 hlk2 hkeep
      rw [hres]
      have harith : info.age + 1 + k = info.age + (k + 1) := by omega
      show (if info.age + 1 + k ≤ s.max_age then
        some { info with age := info.age + 1 + k } else none) = _
      rw [harith]
    · rw [if_neg hkeep] at hlk2
      have hnone : ∀ (j : ℕ) (s2 : TrackerState), List.lookup tid s2.tracks = none →
          List.lookup tid (runAssign s2 (List.replicate j [])).tracks = none := by
        intro j
        induction j with
        | zero =>
          intro s2 h2
          rw [List.replicate_zero, runAssign]
          exact h2
        | succ j ihj =>
          intro s2 h2
          rw [List.replicate_succ, runAssign, assign_nil_eq]
          apply ihj
          rw [lookup_eq_none_iff]
          intro hm
          have hmem := (ageTracks_keys_sublist s2.max_age s2.tracks).mem hm
          exact absurd hmem (lookup_eq_none_iff.mp h2)
      rw [hnone k _ hlk2, if_neg (by omega)]

/-- C5: every `update` call of the fallback tracker first ages every track
and deletes those over `max_age`, so every track in the returned map has
`age ≤ max_age`; and a track that matches no detection (here: frames with
no detections) is still present with age `k` after `k ≤ max_age` calls and
absent on the call where its age first exceeds `max_age`. -/
theorem c5_track_aging :
    (∀ (s : TrackerState) (dets : List Det),
      ∀ p ∈ (assign s dets).tracks, p.2.age ≤ s.max_age) ∧
    (∀ s : TrackerState,
      assign s [] = { s with tracks := ageTracks s.max_age s.tracks }) ∧
    (∀ (s : TrackerState) (tid : ℕ) (info : TrackInfo), WF s →
      List.lookup tid s.tracks = some info → info.age = 0 →
      (∀ k, k ≤ s.max_age →
        List.lookup tid (runAssign s (List.replicate k [])).tracks =
          some { info with age := k }) ∧
      List.lookup tid
        (runAssign s (List.replicate (s.max_age + 1) [])).tracks = none) := by
  refine ⟨assign_age_le, assign_nil_eq, ?_⟩
  intro s tid info hwf hlk hage
  constructor
  · intro k hk
    have h := runAssign_replicate_nil k s tid info hwf hlk (by omega)
    rw [h, if_pos (by omega)]
    simp [hage]
  · have h := runAssign_replicate_nil (s.max_age + 1) s tid info hwf hlk (by omega)
    rw [h, if_neg (by omega)]

/-- C5 witness: a concrete track with `max_age = 2`, aged by empty-frame
updates, present with age 2 after two calls and gone after three. -/
theorem c5_track_aging_witness :
    List.lookup 1 (runAssign ⟨[(1, newTrack ⟨⟨0, 0, 10, 10⟩, 1⟩)], 2, 2⟩
        (List.replicate 2 [])).tracks =
      some { newTrack ⟨⟨0, 0, 10, 10⟩, 1⟩ with age := 2 } ∧
    List.lookup 1 (runAssign ⟨[(1, newTrack ⟨⟨0, 0, 10, 10⟩, 1⟩)], 2, 2⟩
        (List.replicate 3 [])).tracks = none := by
  have h := c5_track_aging.2.2 ⟨[(1, newTrack ⟨⟨0, 0, 10, 10⟩, 1⟩)], 2, 2⟩ 1
    (newTrack ⟨⟨0, 0, 10, 10⟩, 1⟩) ⟨by simp, by simp⟩ rfl rfl
  exact ⟨h.1 2 (by norm_num), h.2⟩
lemma lookup_zip_range' :
    ∀ (L : ℕ) (vs : List TrackInfo) (nid k : ℕ), vs.length = L → k < L →
      List.lookup (nid + k) ((List.range' nid L).zip vs) =
        some (vs.getD k (newTrack defaultDet)) := by
  intro L
  induction L with
  | zero => intro vs nid k _ hk; omega
  | succ L ih =>
    intro vs nid k hlen hk
    cases vs with
    | nil => simp at hlen
    | cons v vs' =>
      rw [List.range'_succ, List.zip_cons_cons, List.lookup_cons]
      cases k with
      | zero =>
        have hb : (nid + 0 == nid) = true := by simp
        rw [hb]
        rfl
      | succ k' =>
        have hb : (nid + (k' + 1) == nid) = false := by
          rw [beq_eq_false_iff_ne]
          omega
        rw [hb]
        have harith : nid + (k' + 1) = (nid + 1) + k' := by omega
        rw [harith, ih vs' (nid + 1) k' (by simpa using hlen) (by omega)]
        rfl

lemma assign_greedy_eq (s : TrackerState) (dets : List Det)
    (hdets : dets.isEmpty = false) (haged : (agedOf s).isEmpty = false) :
    assign s dets =
      { s with
        tracks := ((matchedOf s dets).foldl
            (fun ts p => setTrack ts (((agedOf s).map (·.1)).getD p.1 0)
              (matchedUpdate (dets.getD p.2 defaultDet))) (agedOf s)) ++
          (List.range' s.next_id (unmatchedOf s dets).length).zip
            (((unmatchedOf s dets).map fun j => dets.getD j defaultDet).map newTrack),
        next_id := s.next_id + (unmatchedOf s dets).length } := by
  have haged2 : ¬ ageTracks s.max_age s.tracks = [] := by
    intro hnil
    unfold agedOf at haged
    rw [hnil] at haged
    simp at haged
  simp only [matchedOf, unmatchedOf, agedOf]
  unfold assign
  dsimp only
  rw [if_neg (by simp [hdets]), if_neg (by simpa using haged2)]
  rw [(createTracks_eq _ _ _).1, (createTracks_eq _ _ _).2]
  simp only [List.length_map]

/-- C3: in the greedy fallback matching, whenever some similarity entry
exceeds the (positive) threshold, the first assigned pair is the
`argmax` pair and attains the global maximum, after which the loop
recurses on the row/column-zeroed matrix; when the loop stops, every
(track, detection) pair left unmatched has original similarity at most
the threshold; and every unmatched detection becomes a new track with a
fresh sequential id starting at the running counter. -/
theorem c3_greedy_matching :
    (∀ (thr : ℚ) (m n : ℕ) (M : ℕ → ℕ → ℚ), 0 < thr →
      (∃ i < m, ∃ j < n, thr < M i j) →
      ∃ rest, greedyMatch thr m n M = pickPair m n M :: rest ∧
        (pickPair m n M).1 < m ∧ (pickPair m n M).2 < n ∧
        (∀ i < m, ∀ j < n, M i j ≤ M (pickPair m n M).1 (pickPair m n M).2) ∧
        rest = greedyLoop thr m n (min m n - 1)
          (zeroRC M (pickPair m n M).1 (pickPair m n M).2)) ∧
    (∀ (thr : ℚ) (m n : ℕ) (M : ℕ → ℕ → ℚ), 0 ≤ thr →
      ∀ i < m, ∀ j < n,
        (∀ q ∈ greedyMatch thr m n M, q.1 ≠ i) →
        (∀ q ∈ greedyMatch thr m n M, q.2 ≠ j) → M i j ≤ thr) ∧
    (∀ (s : TrackerState) (dets : List Det), WF s →
      dets.isEmpty = false → (agedOf s).isEmpty = false →
      (assign s dets).tracks.map (·.1) =
        (agedOf s).map (·.1) ++ List.range' s.next_id (unmatchedOf s dets).length ∧
      ∀ k, k < (unmatchedOf s dets).length →
        List.lookup (s.next_id + k) (assign s dets).tracks =
          some (newTrack (dets.getD ((unmatchedOf s dets).getD k 0) defaultDet))) := by
  refine ⟨?_, ?_, ?_⟩
  · intro thr m n M hthr hex
    have hany : anyAbove thr m n M = true := anyAbove_iff.mpr hex
    obtain ⟨i, hi, j, hj, _⟩ := hex
    have hmin : 1 ≤ min m n := by omega
    obtain ⟨f, hf⟩ : ∃ f, min m n = f + 1 := ⟨min m n - 1, by omega⟩
    obtain ⟨hpm, hpn, hMeq, _⟩ := pickPair_spec hany
    refine ⟨greedyLoop thr m n f (zeroRC M (pickPair m n M).1 (pickPair m n M).2),
      ?_, hpm, hpn, ?_, ?_⟩
    · rw [greedyMatch, hf, greedyLoop, if_pos hany]
    · intro i' hi' j' hj'
      rw [hMeq]
      exact matMax_ge hi' hj'
    · congr 1
      omega
  · intro thr m n M hthr i hi j hj hrow hcol
    exact greedy_unmatched hthr m n
      (min (rowsAbove thr m n M) (colsAbove thr m n M)) M (min m n)
      (le_refl _)
      (min_le_min (rowsAbove_le thr m n M) (colsAbove_le thr m n M))
      i hi j hj hrow hcol
  · intro s dets hwf hdets haged
    rw [assign_greedy_eq s dets hdets haged]
    constructor
    · rw [List.map_append, foldl_setTrack_keys]
      congr 1
      rw [List.map_fst_zip]
      simp
    · intro k hk
      rw [List.lookup_append]
      have h1 : List.lookup (s.next_id + k) ((matchedOf s dets).foldl
          (fun ts p => setTrack ts (((agedOf s).map (·.1)).getD p.1 0)
            (matchedUpdate (dets.getD p.2 defaultDet))) (agedOf s)) = none := by
        apply lookup_eq_none_of_not_mem
        intro hm
        rw [show (List.map Prod.fst ((matchedOf s dets).foldl
            (fun ts p => setTrack ts (((agedOf s).map (·.1)).getD p.1 0)
              (matchedUpdate (dets.getD p.2 defaultDet))) (agedOf s))) =
            ((matchedOf s dets).foldl
            (fun ts p => setTrack ts (((agedOf s).map (·.1)).getD p.1 0)
              (matchedUpdate (dets.getD p.2 defaultDet))) (agedOf s)).map (·.1) from rfl,
          foldl_setTrack_keys] at hm
        have := hwf.2 _ ((ageTracks_keys_sublist s.max_age s.tracks).mem hm)
        omega
      rw [h1, Option.none_or]
      rw [lookup_zip_range' ((unmatchedOf s dets).length) _ s.next_id k (by simp) hk]
      congr 1
      have hk2 : k < (((unmatchedOf s dets).map fun j => dets.getD j defaultDet).map newTrack).length := by
        simpa using hk
      rw [List.getD_eq_getElem _ _ hk2, List.getElem_map, List.getElem_map,
        List.getD_eq_getElem _ _ hk]

/-- C3 witness: the head-of-list maximality on a concrete matrix with a
clear maximum, and the new-track facts on a concrete tracker state. -/
theorem c3_greedy_matching_witness :
    (∃ rest, greedyMatch (1 / 2) 2 2 witMatrix = pickPair 2 2 witMatrix :: rest ∧
      (pickPair 2 2 witMatrix).1 < 2 ∧ (pickPair 2 2 witMatrix).2 < 2 ∧
      (∀ i < 2, ∀ j < 2,
        witMatrix i j ≤ witMatrix (pickPair 2 2 witMatrix).1 (pickPair 2 2 witMatrix).2) ∧
      rest = greedyLoop (1 / 2) 2 2 (min 2 2 - 1)
        (zeroRC witMatrix (pickPair 2 2 witMatrix).1 (pickPair 2 2 witMatrix).2)) ∧
    (assign witTrackerState witDets).tracks.map (·.1) =
      (agedOf witTrackerState).map (·.1) ++
        List.range' 3 (unmatchedOf witTrackerState witDets).length := by
  constructor
  · exact c3_greedy_matching.1 (1 / 2) 2 2 witMatrix (by norm_num)
      ⟨1, by norm_num, 0, by norm_num, by norm_num [witMatrix]⟩
  · exact (c3_greedy_matching.2.2 witTrackerState witDets
      ⟨by decide, by decide⟩ rfl (by decide)).1

/-- C6: with fewer than `num_frames` buffered frames, `classify` returns
the default no-violence result (class id 0, score 0, flag false) and the
result does not depend on the model or the exponential, i.e. inference is
not invoked. -/
theorem c6_classify_short_buffer (expF : ℚ → ℚ) (model : List Frame → List ℚ)
    (st : ClassifierState) (h : st.frame_buffer.length < st.num_frames) :
    classify expF model st = defaultClassResult ∧
    defaultClassResult.class_id = 0 ∧
    defaultClassResult.class_name = "no_violencia" ∧
    defaultClassResult.score = 0 ∧
    defaultClassResult.violence_detected = false ∧
    ∀ (e2 : ℚ → ℚ) (m2 : List Frame → List ℚ),
      classify expF model st = classify e2 m2 st := by
  refine ⟨?_, rfl, rfl, rfl, rfl, ?_⟩
  · unfold classify
    rw [if_pos h]
  · intro e2 m2
    unfold classify
    rw [if_pos h, if_pos h]

/-- C6 witness: a classifier state with an empty buffer and capacity 8. -/
theorem c6_classify_short_buffer_witness :
    classify (fun q => q) (fun _ => [1, 0, 0]) ⟨[], 8, 4 / 5⟩ = defaultClassResult :=
  (c6_classify_short_buffer (fun q => q) (fun _ => [1, 0, 0]) ⟨[], 8, 4 / 5⟩
    (by norm_num)).1

/-- C7: on the successful inference path (full buffer), the returned class
is the argmax of the softmax of the model's logits, the score is that
class's softmax value, and `violence_detected` holds iff (class 2 and
score ≥ threshold) or (class 1 and score ≥ threshold + 0.1). -/
theorem c7_classify_decision (expF : ℚ → ℚ) (model : List Frame → List ℚ)
    (st : ClassifierState) (h : st.num_frames ≤ st.frame_buffer.length) :
    (classify expF model st).class_id =
      argmaxIdx (softmax expF (model st.frame_buffer)) ∧
    (classify expF model st).score =
      (softmax expF (model st.frame_buffer)).getD
        (argmaxIdx (softmax expF (model st.frame_buffer))) 0 ∧
    ((classify expF model st).violence_detected = true ↔
      ((classify expF model st).class_id = 2 ∧
        st.threshold ≤ (classify expF model st).score) ∨
      ((classify expF model st).class_id = 1 ∧
        st.threshold + 1 / 10 ≤ (classify expF model st).score)) := by
  have hnot : ¬ st.frame_buffer.length < st.num_frames := by omega
  unfold classify
  rw [if_neg hnot]
  dsimp only
  refine ⟨rfl, rfl, ?_⟩
  simp only [decide_eq_true_eq]

/-- C7 witness: the decision rule evaluated with a full buffer, a constant
exponential and a concrete logits vector. -/
theorem c7_classify_decision_witness :
    (classify (fun _ => 1) (fun _ => [0, 0, 0])
        ⟨List.replicate 8 ⟨1, 0⟩, 8, 4 / 5⟩).class_id =
      argmaxIdx (softmax (fun _ => 1)
        ((fun _ => [0, 0, 0]) (List.replicate 8 (⟨1, 0⟩ : Frame)))) ∧
    ((classify (fun _ => 1) (fun _ => [0, 0, 0])
        ⟨List.replicate 8 ⟨1, 0⟩, 8, 4 / 5⟩).violence_detected = true ↔
      ((classify (fun _ => 1) (fun _ => [0, 0, 0])
          ⟨List.replicate 8 ⟨1, 0⟩, 8, 4 / 5⟩).class_id = 2 ∧
        (4 : ℚ) / 5 ≤ (classify (fun _ => 1) (fun _ => [0, 0, 0])
          ⟨List.replicate 8 ⟨1, 0⟩, 8, 4 / 5⟩).score) ∨
      ((classify (fun _ => 1) (fun _ => [0, 0, 0])
          ⟨List.replicate 8 ⟨1, 0⟩, 8, 4 / 5⟩).class_id = 1 ∧
        (4 : ℚ) / 5 + 1 / 10 ≤ (classify (fun _ => 1) (fun _ => [0, 0, 0])
          ⟨List.replicate 8 ⟨1, 0⟩, 8, 4 / 5⟩).score)) := by
  have h := c7_classify_decision (fun _ => 1) (fun _ => [0, 0, 0])
    ⟨List.replicate 8 ⟨1, 0⟩, 8, 4 / 5⟩ (by simp)
  exact ⟨h.1, h.2.2⟩

/-- C9: for a `None` or zero-size frame, `process_frame` returns the
default result (current frame id, empty persons, violence false, no other
fields) and the entire pipeline state is returned unchanged; the
right-hand side mentions none of the component oracles, so no detector,
tracker or classifier call can influence it. -/
theorem c9_process_frame_guard (detector : Frame → List Det) (expF : ℚ → ℚ)
    (model : List Frame → List ℚ) (now : ℚ) (st : PipelineState)
    (input : Option Frame)
    (h : input = none ∨ ∃ f, input = some f ∧ f.size = 0) :
    processFrame detector expF model now st input = (st, guardResult st) ∧
    guardResult st =
      { frame_id := st.frame_count, persons := [], violence_detected := false,
        violence_score := none, violence_class := none, fps := none } := by
  refine ⟨?_, rfl⟩
  rcases h with rfl | ⟨f, rfl, hf⟩
  · rfl
  · unfold processFrame
    dsimp only
    rw [if_pos hf]

/-- C9 witness: the guard evaluated on the `None` frame and on a zero-size
frame with a concrete pipeline state. -/
theorem c9_process_frame_guard_witness :
    processFrame (fun _ => []) (fun q => q) (fun _ => []) 0
      ⟨7, 2, none, 0, 3, 0, ⟨[], 8, 4 / 5⟩, initState 30, 4⟩ none =
      (⟨7, 2, none, 0, 3, 0, ⟨[], 8, 4 / 5⟩, initState 30, 4⟩,
        guardResult ⟨7, 2, none, 0, 3, 0, ⟨[], 8, 4 / 5⟩, initState 30, 4⟩) ∧
    processFrame (fun _ => []) (fun q => q) (fun _ => []) 0
      ⟨7, 2, none, 0, 3, 0, ⟨[], 8, 4 / 5⟩, initState 30, 4⟩ (some ⟨0, 0⟩) =
      (⟨7, 2, none, 0, 3, 0, ⟨[], 8, 4 / 5⟩, initState 30, 4⟩,
        guardResult ⟨7, 2, none, 0, 3, 0, ⟨[], 8, 4 / 5⟩, initState 30, 4⟩) :=
  ⟨(c9_process_frame_guard (fun _ => []) (fun q => q) (fun _ => []) 0
      ⟨7, 2, none, 0, 3, 0, ⟨[], 8, 4 / 5⟩, initState 30, 4⟩ none (Or.inl rfl)).1,
   (c9_process_frame_guard (fun _ => []) (fun q => q) (fun _ => []) 0
      ⟨7, 2, none, 0, 3, 0, ⟨[], 8, 4 / 5⟩, initState 30, 4⟩ (some ⟨0, 0⟩)
      (Or.inr ⟨⟨0, 0⟩, rfl, rfl⟩)).1⟩
set_option maxHeartbeats 2000000 in
/-- C8 counterexample: two identical raw predictions above the confidence
threshold are both returned by `postprocess`, with mutual overlap
(IoU) 1 > 0.45 — no non-maximum suppression is applied. -/
theorem c8_postprocess_counterexample :
    postprocessDet 640 640 (7 / 10)
        [⟨10, 10, 20, 20, 9 / 10⟩, ⟨10, 10, 20, 20, 9 / 10⟩] 640 640 =
      [⟨10, 10, 20, 20, 9 / 10, 0, "person"⟩, ⟨10, 10, 20, 20, 9 / 10, 0, "person"⟩] ∧
    (9 : ℚ) / 20 <
      calculateIou (detOutBox ⟨10, 10, 20, 20, 9 / 10, 0, "person"⟩)
        (detOutBox ⟨10, 10, 20, 20, 9 / 10, 0, "person"⟩) := by
  constructor
  · norm_num [postprocessDet, rescaleClip, pyInt, List.filterMap_cons]
  · norm_num [calculateIou, detOutBox]

/-- C8 amended: `postprocess` keeps exactly the predictions at or above
the confidence threshold, rescales each surviving box from model-input to
original resolution, and clips it inside the image bounds; it applies no
non-maximum suppression. -/
theorem c8_postprocess_filter_rescale_clip (inputW inputH : ℕ) (confThr : ℚ)
    (preds : List RawPred) (origH origW : ℕ) :
    postprocessDet inputW inputH confThr preds origH origW =
      (preds.filter fun p => decide (confThr ≤ p.conf)).map
        (rescaleClip ((origW : ℚ) / (inputW : ℚ)) ((origH : ℚ) / (inputH : ℚ))
          origW origH) ∧
    ∀ d ∈ postprocessDet inputW inputH confThr preds origH origW,
      0 ≤ d.bx ∧ 0 ≤ d.by' ∧ 0 ≤ d.bw ∧ 0 ≤ d.bh ∧
      d.bx + d.bw ≤ (origW : ℤ) ∧ d.by' + d.bh ≤ (origH : ℤ) := by
  have hmain : postprocessDet inputW inputH confThr preds origH origW =
      (preds.filter fun p => decide (confThr ≤ p.conf)).map
        (rescaleClip ((origW : ℚ) / (inputW : ℚ)) ((origH : ℚ) / (inputH : ℚ))
          origW origH) := by
    unfold postprocessDet
    dsimp only
    induction preds with
    | nil => rfl
    | cons p ps ih =>
      rw [List.filterMap_cons, List.filter_cons]
      by_cases hc : confThr ≤ p.conf
      · rw [if_pos hc, if_pos (decide_eq_true hc)]
        dsimp only
        rw [List.map_cons, ih]
      · rw [if_neg hc, if_neg (by simpa using hc)]
        dsimp only
        exact ih
  refine ⟨hmain, ?_⟩
  intro d hd
  rw [hmain] at hd
  rcases List.mem_map.mp hd with ⟨p, _, rfl⟩
  unfold rescaleClip
  dsimp only
  have hw : (0 : ℤ) ≤ (origW : ℤ) := Int.ofNat_nonneg origW
  have hh : (0 : ℤ) ≤ (origH : ℤ) := Int.ofNat_nonneg origH
  omega

set_option maxHeartbeats 2000000 in
/-- C8 witness: the clipping bounds instantiated on a concrete output box
of a concrete `postprocess` call. -/
theorem c8_postprocess_filter_rescale_clip_witness :
    (0 : ℤ) ≤ (⟨10, 10, 20, 20, 9 / 10, 0, "person"⟩ : DetOut).bx ∧
    (0 : ℤ) ≤ (⟨10, 10, 20, 20, 9 / 10, 0, "person"⟩ : DetOut).by' ∧
    (0 : ℤ) ≤ (⟨10, 10, 20, 20, 9 / 10, 0, "person"⟩ : DetOut).bw ∧
    (0 : ℤ) ≤ (⟨10, 10, 20, 20, 9 / 10, 0, "person"⟩ : DetOut).bh ∧
    (⟨10, 10, 20, 20, 9 / 10, 0, "person"⟩ : DetOut).bx +
      (⟨10, 10, 20, 20, 9 / 10, 0, "person"⟩ : DetOut).bw ≤ ((640 : ℕ) : ℤ) ∧
    (⟨10, 10, 20, 20, 9 / 10, 0, "person"⟩ : DetOut).by' +
      (⟨10, 10, 20, 20, 9 / 10, 0, "person"⟩ : DetOut).bh ≤ ((640 : ℕ) : ℤ) := by
  exact (c8_postprocess_filter_rescale_clip 640 640 (7 / 10)
      [⟨10, 10, 20, 20, 9 / 10⟩] 640 640).2
    ⟨10, 10, 20, 20, 9 / 10, 0, "person"⟩
    (by norm_num [postprocessDet, rescaleClip, pyInt, List.filterMap_cons])
/-- C1 counterexample: a DeepSORT-mode tracker whose previous (successful)
call returned the map with track id 5; on an exception the `except`
handler resets the fallback state and reprocesses the current detections,
returning a freshly built map with track id 1 — not the last-known map
unchanged. -/
theorem c1_update_error_counterexample :
    (deepsortResult [⟨5, true, (0, 0, 10, 10), 9 / 10, none⟩]).map (·.1) = [5] ∧
    ((updateOnError ⟨true, initState 30⟩ [⟨⟨0, 0, 10, 10⟩, 9 / 10⟩]).2).map (·.1) = [1] ∧
    ¬ ([1] : List ℕ) = [5] := by
  refine ⟨?_, ?_, by decide⟩
  · rfl
  · norm_num [updateOnError, initState, assign, ageTracks, createTracks, newTrack]

/-- C1 amended: any exception inside `update` is caught; after the handler
the tracker is always in fallback mode (the downgrade is one-way); in
Strategy A the handler resets the fallback state (empty map, next id 1)
and reprocesses the current detections with Strategy B, returning the
freshly built map; in Strategy B it returns its current track map. -/
theorem c1_update_error_amended (a : AiTrackerState) (dets : List Det) :
    (updateOnError a dets).1.use_deepsort = false ∧
    (a.use_deepsort = true →
      (updateOnError a dets).1.fallback = assign (initState a.fallback.max_age) dets ∧
      (updateOnError a dets).2 = (assign (initState a.fallback.max_age) dets).tracks) ∧
    (a.use_deepsort = false →
      (updateOnError a dets).1 = a ∧
      (updateOnError a dets).2 = a.fallback.tracks) := by
  by_cases h : a.use_deepsort = true
  · refine ⟨?_, fun _ => ⟨?_, ?_⟩, fun hf => absurd h (by simp [hf])⟩ <;>
      simp [updateOnError, h]
  · rw [Bool.not_eq_true] at h
    refine ⟨?_, fun ht => absurd ht (by simp [h]), fun _ => ⟨?_, ?_⟩⟩ <;>
      simp [updateOnError, h]

/-- C1 witness: both handler branches evaluated on concrete states. -/
theorem c1_update_error_amended_witness :
    (updateOnError ⟨true, initState 30⟩ []).1.fallback = assign (initState 30) [] ∧
    (updateOnError ⟨false, witTrackerState⟩ []).2 = witTrackerState.tracks :=
  ⟨((c1_update_error_amended ⟨true, initState 30⟩ []).2.1 rfl).1,
   ((c1_update_error_amended ⟨false, witTrackerState⟩ []).2.2 rfl).2⟩
